import Mathlib

/-!
Verification of the n-gram frequency estimator in
`src/chapter_recurrent-neural-networks/lang-model.ipynb`.

The notebook's algorithmic content:
* tokenization of a line: `re.sub('[^A-Za-z]+', ' ', st).lower().split()`
* `counter = collections.Counter([tk for st in raw_dataset for tk in st])`
* `word_pairs = [pair for pair in zip(wseq[:-1], wseq[1:])]`,
  `counter_pairs = collections.Counter(word_pairs)`
* `word_triples = [triple for triple in zip(wseq[:-2], wseq[1:-1], wseq[2:])]`,
  `counter_triples = collections.Counter(word_triples)`
* the Laplace-smoothing formulas stated in the notebook's markdown:
  `p(w) = (n(w) + eps1/m) / (n + eps1)` and
  `p(w2|w1) = (n(w1,w2) + eps2 * p(w2)) / (n(w1) + eps2)`.

Characters are embedded as their code points (`Nat`), tokens of the counting
layer are a generic type with decidable equality, and real-valued
probabilities are embedded as rationals (the formulas are exact arithmetic).
-/

namespace LangModel

/-! ### Tokenization -/

/-- Character class `[A-Za-z]` of the regular expression in the notebook:
codes 65–90 and 97–122. -/
def isAlphaCode (c : Nat) : Bool :=
  (65 ≤ c && c ≤ 90) || (97 ≤ c && c ≤ 122)

/-- ASCII whitespace recognized by Python `str.split()`:
space, tab, newline, vertical tab, form feed, carriage return. -/
def isSpaceCode (c : Nat) : Bool :=
  c == 32 || c == 9 || c == 10 || c == 11 || c == 12 || c == 13

/-- `str.lower()` restricted to ASCII: an uppercase letter gains 32,
every other code is unchanged.  In the pipeline it is applied after the
substitution, so its argument is always a letter or a space. -/
def lowerCode (c : Nat) : Nat :=
  if 65 ≤ c ∧ c ≤ 90 then c + 32 else c

/-- Worker for `re.sub('[^A-Za-z]+', ' ', st)`: the flag records whether the
previous character belonged to a non-alphabetic run whose single replacement
space has already been emitted. -/
def subNonAlphaAux : Bool → List Nat → List Nat
  | _, [] => []
  | prev, c :: cs =>
    if isAlphaCode c then c :: subNonAlphaAux false cs
    else if prev then subNonAlphaAux true cs
    else 32 :: subNonAlphaAux true cs

/-- `re.sub('[^A-Za-z]+', ' ', st)`: each maximal run of non-alphabetic
characters is replaced by one space. -/
def subNonAlpha (l : List Nat) : List Nat := subNonAlphaAux false l

/-- Python `str.split()` with no argument: split on runs of whitespace,
discarding empty pieces. -/
def splitWs : List Nat → List (List Nat)
  | [] => []
  | c :: cs =>
    if isSpaceCode c then splitWs cs
    else
      match cs with
      | [] => [[c]]
      | d :: _ =>
        if isSpaceCode d then [c] :: splitWs cs
        else
          match splitWs cs with
          | [] => [[c]]
          | t :: ts => (c :: t) :: ts

/-- One line of `raw_dataset`:
`re.sub('[^A-Za-z]+', ' ', st).lower().split()`. -/
def tokenize (line : List Nat) : List (List Nat) :=
  splitWs ((subNonAlpha line).map lowerCode)

/-! ### Frequency tables -/

variable {α : Type}

/-- `[tk for st in raw_dataset for tk in st]`: the corpus flattened to one
token sequence (the notebook's `wseq`, also the list fed to `counter`). -/
def wseq (raw_dataset : List (List α)) : List α := raw_dataset.flatten

/-- `collections.Counter(tokens)` viewed as its lookup function: a `Counter`
returns the number of occurrences, and 0 for an absent key
(`Counter.__missing__`). -/
def counter [DecidableEq α] (tokens : List α) (w : α) : ℕ := tokens.count w

/-- The key set of `collections.Counter(tokens)`: the distinct elements. -/
def counterKeys [DecidableEq α] (tokens : List α) : Finset α := tokens.toFinset

/-- `word_pairs = [pair for pair in zip(wseq[:-1], wseq[1:])]`:
`wseq[:-1]` is `dropLast`, `wseq[1:]` is `tail`, and `zip` truncates to the
shorter operand exactly as Python's does. -/
def word_pairs (tokens : List α) : List (α × α) :=
  tokens.dropLast.zip tokens.tail

/-- `counter_pairs = collections.Counter(word_pairs)` as a lookup function. -/
def counter_pairs [DecidableEq α] (tokens : List α) (p : α × α) : ℕ :=
  (word_pairs tokens).count p

/-- `word_triples = [triple for triple in zip(wseq[:-2], wseq[1:-1], wseq[2:])]`:
`wseq[:-2]` is `dropLast.dropLast`, `wseq[1:-1]` is `tail.dropLast`,
`wseq[2:]` is `tail.tail`; a Python 3-tuple is a nested pair here. -/
def word_triples (tokens : List α) : List (α × α × α) :=
  (tokens.dropLast.dropLast).zip ((tokens.tail.dropLast).zip tokens.tail.tail)

/-- `counter_triples = collections.Counter(word_triples)` as a lookup
function. -/
def counter_triples [DecidableEq α] (tokens : List α) (t : α × α × α) : ℕ :=
  (word_triples tokens).count t

/-! ### Smoothed probability estimates

The notebook states these only as mathematics:
`p(w) = (n(w) + eps1/m) / (n + eps1)` with `m` the vocabulary size and `n`
the corpus length, and
`p(w2|w1) = (n(w1,w2) + eps2 * p(w2)) / (n(w1) + eps2)`,
with coefficients `eps_i > 0`. -/

/-- Smoothed unigram probability, from the markdown formula
`p(w) = (n(w) + eps1/m) / (n + eps1)`. -/
def unigram_prob (w : α) (table1 : α → ℕ) (total eps1 m : ℚ) : ℚ :=
  ((table1 w : ℚ) + eps1 / m) / (total + eps1)

/-- Smoothed bigram probability, from the markdown formula
`p(w2|w1) = (n(w1,w2) + eps2 * p(w2)) / (n(w1) + eps2)`. -/
def bigram_prob (w2 w1 : α) (table2 : α × α → ℕ) (table1 : α → ℕ)
    (eps2 total eps1 m : ℚ) : ℚ :=
  ((table2 (w1, w2) : ℚ) + eps2 * unigram_prob w2 table1 total eps1 m) /
    ((table1 w1 : ℚ) + eps2)

/-- Transcription of the spec's own wording for `unigram_prob`:
"returns `(count(word, table1) + ε1/vocab_size) / (total + ε1)`". -/
def unigram_prob_specForm (word : α) (table1 : α → ℕ)
    (total eps1 vocab_size : ℚ) : ℚ :=
  ((table1 word : ℚ) + eps1 / vocab_size) / (total + eps1)

/-! ### Helper lemmas -/

/-- Dropping the last element of the left operand of `zip` is redundant when
the right operand is at least one element shorter. -/
theorem zip_dropLast_of_le {β : Type} (l₁ : List α) (l₂ : List β)
    (h : l₂.length ≤ l₁.length - 1) :
    l₁.dropLast.zip l₂ = l₁.zip l₂ := by
  induction l₁ generalizing l₂ with
  | nil => simp
  | cons a t ih =>
    cases l₂ with
    | nil => simp [List.zip_nil_right]
    | cons b s =>
      cases t with
      | nil => simp at h
      | cons c r =>
        rw [List.dropLast_cons₂, List.zip_cons_cons, List.zip_cons_cons,
          ih s (by simp only [List.length_cons] at h ⊢; omega)]

theorem word_pairs_eq_zip (l : List α) : word_pairs l = l.zip l.tail := by
  unfold word_pairs
  exact zip_dropLast_of_le l l.tail (by simp)

theorem word_triples_eq_zip (l : List α) :
    word_triples l = l.zip (l.tail.zip l.tail.tail) := by
  unfold word_triples
  rw [zip_dropLast_of_le l.tail l.tail.tail (by simp),
    zip_dropLast_of_le l.dropLast _ (by simp [List.length_zip]),
    zip_dropLast_of_le l _ (by simp [List.length_zip])]

theorem length_word_pairs (l : List α) : (word_pairs l).length = l.length - 1 := by
  simp [word_pairs, List.length_zip]

theorem length_word_triples (l : List α) :
    (word_triples l).length = l.length - 2 := by
  simp [word_triples, List.length_zip]
  omega

/-- A list's key set has full cardinality exactly when the list has no
duplicates. -/
theorem toFinset_card_eq_length_iff [DecidableEq α] (l : List α) :
    l.toFinset.card = l.length ↔ l.Nodup := by
  rw [List.card_toFinset]
  constructor
  · intro h
    rw [← List.dedup_eq_self]
    exact (List.dedup_sublist l).eq_of_length h
  · intro h
    rw [List.dedup_eq_self.mpr h]

/-! ### Claim theorems -/

/-- C1: for every corpus, the sum of the values of the unigram frequency
table built over the flattened token sequence equals the total number of
tokens in that sequence. -/
theorem sum_counter_eq_length [DecidableEq α] (raw_dataset : List (List α)) :
    ∑ w ∈ (wseq raw_dataset).toFinset, counter (wseq raw_dataset) w
      = (wseq raw_dataset).length := by
  simp [counter]

/-- C2: the n-gram lists slide a width-n window with stride 1 (the
recurrences), contain exactly `len - n + 1` n-grams when `len ≥ n`, and are
empty when `len < n`, for n = 1 (the token list itself), 2 and 3. -/
theorem build_counts_window (tokens : List α) :
    (tokens.length < 1 → tokens = [])
    ∧ (1 ≤ tokens.length → tokens.length = tokens.length - 1 + 1)
    ∧ (∀ (a b : α) (l : List α),
        word_pairs (a :: b :: l) = (a, b) :: word_pairs (b :: l))
    ∧ (2 ≤ tokens.length → (word_pairs tokens).length = tokens.length - 2 + 1)
    ∧ (tokens.length < 2 → word_pairs tokens = [])
    ∧ (∀ (a b c : α) (l : List α),
        word_triples (a :: b :: c :: l) = (a, b, c) :: word_triples (b :: c :: l))
    ∧ (3 ≤ tokens.length → (word_triples tokens).length = tokens.length - 3 + 1)
    ∧ (tokens.length < 3 → word_triples tokens = []) := by
  refine ⟨?_, ?_, ?_, ?_, ?_, ?_, ?_, ?_⟩
  · intro h
    exact List.length_eq_zero.mp (by omega)
  · intro h; omega
  · intro a b l
    rw [word_pairs_eq_zip, word_pairs_eq_zip]
    rfl
  · intro h
    rw [length_word_pairs]
    omega
  · intro h
    exact List.length_eq_zero.mp (by rw [length_word_pairs]; omega)
  · intro a b c l
    rw [word_triples_eq_zip, word_triples_eq_zip]
    rfl
  · intro h
    rw [length_word_triples]
    omega
  · intro h
    exact List.length_eq_zero.mp (by rw [length_word_triples]; omega)

/-- Witness for C2 at the concrete token lists `[0, 1, 2]` and `[0, 1]`. -/
theorem build_counts_window_witness :
    (word_pairs ([0, 1, 2] : List ℕ)).length = 3 - 2 + 1
    ∧ word_triples ([0, 1] : List ℕ) = [] :=
  ⟨(build_counts_window ([0, 1, 2] : List ℕ)).2.2.2.1 (by norm_num),
   (build_counts_window ([0, 1] : List ℕ)).2.2.2.2.2.2.2 (by norm_num)⟩

/-- C6: for n = 1, 2, 3, the number of distinct n-gram keys is at most
`len - n + 1`, with equality (when `len ≥ n`) exactly when all produced
n-grams are distinct. -/
theorem ngram_keys_card [DecidableEq α] (tokens : List α) :
    ((counterKeys tokens).card ≤ tokens.length - 1 + 1
      ∧ (1 ≤ tokens.length →
          ((counterKeys tokens).card = tokens.length - 1 + 1 ↔ tokens.Nodup)))
    ∧ ((word_pairs tokens).toFinset.card ≤ tokens.length - 2 + 1
      ∧ (2 ≤ tokens.length →
          ((word_pairs tokens).toFinset.card = tokens.length - 2 + 1
            ↔ (word_pairs tokens).Nodup)))
    ∧ ((word_triples tokens).toFinset.card ≤ tokens.length - 3 + 1
      ∧ (3 ≤ tokens.length →
          ((word_triples tokens).toFinset.card = tokens.length - 3 + 1
            ↔ (word_triples tokens).Nodup))) := by
  refine ⟨⟨?_, ?_⟩, ⟨?_, ?_⟩, ⟨?_, ?_⟩⟩
  · have h := List.toFinset_card_le tokens
    simp only [counterKeys]
    omega
  · intro h
    rw [show tokens.length - 1 + 1 = tokens.length by omega]
    exact toFinset_card_eq_length_iff tokens
  · have h := List.toFinset_card_le (word_pairs tokens)
    rw [length_word_pairs] at h
    omega
  · intro h
    rw [show tokens.length - 2 + 1 = (word_pairs tokens).length by
      rw [length_word_pairs]; omega]
    exact toFinset_card_eq_length_iff (word_pairs tokens)
  · have h := List.toFinset_card_le (word_triples tokens)
    rw [length_word_triples] at h
    omega
  · intro h
    rw [show tokens.length - 3 + 1 = (word_triples tokens).length by
      rw [length_word_triples]; omega]
    exact toFinset_card_eq_length_iff (word_triples tokens)

/-- Witness for C6 at the concrete token list `[0, 1]`. -/
theorem ngram_keys_card_witness :
    (counterKeys ([0, 1] : List ℕ)).card = 2 - 1 + 1 ↔ ([0, 1] : List ℕ).Nodup :=
  (ngram_keys_card ([0, 1] : List ℕ)).1.2 (by norm_num)

/-- C9: every key stored in an n-gram table has count at least 1, and looking
up an absent n-gram returns 0, for the unigram, bigram and trigram tables. -/
theorem counter_entries [DecidableEq α] (tokens : List α) :
    (∀ w, w ∈ counterKeys tokens → 1 ≤ counter tokens w)
    ∧ (∀ w, w ∉ counterKeys tokens → counter tokens w = 0)
    ∧ (∀ p, p ∈ (word_pairs tokens).toFinset → 1 ≤ counter_pairs tokens p)
    ∧ (∀ p, p ∉ (word_pairs tokens).toFinset → counter_pairs tokens p = 0)
    ∧ (∀ t, t ∈ (word_triples tokens).toFinset → 1 ≤ counter_triples tokens t)
    ∧ (∀ t, t ∉ (word_triples tokens).toFinset → counter_triples tokens t = 0) := by
  refine ⟨?_, ?_, ?_, ?_, ?_, ?_⟩
  · intro w hw
    exact List.count_pos_iff.mpr (List.mem_toFinset.mp hw)
  · intro w hw
    exact List.count_eq_zero.mpr (fun hmem => hw (List.mem_toFinset.mpr hmem))
  · intro p hp
    exact List.count_pos_iff.mpr (List.mem_toFinset.mp hp)
  · intro p hp
    exact List.count_eq_zero.mpr (fun hmem => hp (List.mem_toFinset.mpr hmem))
  · intro t ht
    exact List.count_pos_iff.mpr (List.mem_toFinset.mp ht)
  · intro t ht
    exact List.count_eq_zero.mpr (fun hmem => ht (List.mem_toFinset.mpr hmem))

/-- Witness for C9 at the concrete token list `[5]`. -/
theorem counter_entries_witness : 1 ≤ counter ([5] : List ℕ) 5 :=
  (counter_entries ([5] : List ℕ)).1 5 (by decide)

/-- C3: if the prefix word `w1` never appears in the corpus (unigram count 0),
then the smoothed bigram probability of `w2` after `w1` equals the smoothed
unigram probability of `w2`: the formula backs off to the lower-order
estimate, and with a positive smoothing constant no division by zero
arises. -/
theorem bigram_prob_backoff [DecidableEq α] (tokens : List α) (w1 w2 : α)
    (eps2 total eps1 m : ℚ) (h0 : counter tokens w1 = 0) (heps : eps2 ≠ 0) :
    bigram_prob w2 w1 (counter_pairs tokens) (counter tokens) eps2 total eps1 m
      = unigram_prob w2 (counter tokens) total eps1 m := by
  have hw1 : w1 ∉ tokens := List.count_eq_zero.mp h0
  have hp : counter_pairs tokens (w1, w2) = 0 := by
    apply List.count_eq_zero.mpr
    intro hmem
    rw [word_pairs_eq_zip] at hmem
    exact hw1 (List.of_mem_zip hmem).1
  unfold bigram_prob
  rw [hp, h0]
  push_cast
  rw [zero_add, zero_add]
  exact mul_div_cancel_left₀ _ heps

/-- Witness for C3 at the corpus `[1]` with absent prefix word `0`. -/
theorem bigram_prob_backoff_witness :
    bigram_prob 1 0 (counter_pairs ([1] : List ℕ)) (counter ([1] : List ℕ))
        1 1 1 1
      = unigram_prob 1 (counter ([1] : List ℕ)) 1 1 1 :=
  bigram_prob_backoff ([1] : List ℕ) 0 1 1 1 1 1 (by decide) (by norm_num)

/-- C4: when the smoothing constant is positive, the vocabulary size is at
least 1 and the word's count does not exceed the total, the smoothed unigram
probability is strictly positive and at most 1. -/
theorem unigram_prob_pos_le_one (w : α) (table1 : α → ℕ) (total eps1 m : ℚ)
    (htot : (table1 w : ℚ) ≤ total) (heps : 0 < eps1) (hm : 1 ≤ m) :
    0 < unigram_prob w table1 total eps1 m
    ∧ unigram_prob w table1 total eps1 m ≤ 1 := by
  have hc : (0 : ℚ) ≤ (table1 w : ℚ) := Nat.cast_nonneg _
  have hm0 : (0 : ℚ) < m := lt_of_lt_of_le one_pos hm
  have hnum : 0 < (table1 w : ℚ) + eps1 / m :=
    add_pos_of_nonneg_of_pos hc (div_pos heps hm0)
  have hden : 0 < total + eps1 :=
    add_pos_of_nonneg_of_pos (le_trans hc htot) heps
  constructor
  · exact div_pos hnum hden
  · rw [unigram_prob, div_le_one hden]
    have hdm : eps1 / m ≤ eps1 := div_le_self heps.le hm
    linarith

/-- Witness for C4 at a concrete word, table and constants. -/
theorem unigram_prob_pos_le_one_witness :
    0 < unigram_prob (0 : ℕ) (fun _ => 0) 1 1 1
    ∧ unigram_prob (0 : ℕ) (fun _ => 0) 1 1 1 ≤ 1 :=
  unigram_prob_pos_le_one 0 (fun _ => 0) 1 1 1 (by norm_num) (by norm_num)
    (by norm_num)

/-- C5: the smoothed unigram probability equals the spec's formula
`(count(word, table1) + ε1/vocab_size) / (total + ε1)`. -/
theorem unigram_prob_eq_specForm (w : α) (table1 : α → ℕ)
    (total eps1 m : ℚ) :
    unigram_prob w table1 total eps1 m
      = unigram_prob_specForm w table1 total eps1 m := rfl

/-- C8: on the concrete corpus `["a","b","a","b","a"]` the unigram table is
`{a: 3, b: 2}`, the bigram table is `{(a,b): 2, (b,a): 2}`, and the unigram
probability of `"a"` with smoothing constant 0 is `3/5`. -/
theorem scenario_ababa :
    counter ["a", "b", "a", "b", "a"] "a" = 3
    ∧ counter ["a", "b", "a", "b", "a"] "b" = 2
    ∧ counterKeys ["a", "b", "a", "b", "a"] = {"a", "b"}
    ∧ counter_pairs ["a", "b", "a", "b", "a"] ("a", "b") = 2
    ∧ counter_pairs ["a", "b", "a", "b", "a"] ("b", "a") = 2
    ∧ (word_pairs ["a", "b", "a", "b", "a"]).toFinset = {("a", "b"), ("b", "a")}
    ∧ unigram_prob "a" (counter ["a", "b", "a", "b", "a"]) 5 0 2 = 3 / 5 := by
  refine ⟨by decide, by decide, by decide, by decide, by decide, by decide, ?_⟩
  have h : counter ["a", "b", "a", "b", "a"] "a" = 3 := by decide
  rw [unigram_prob, h]
  norm_num

/-- Every character emitted by the substitution worker is alphabetic or the
replacement space. -/
theorem mem_subNonAlphaAux (l : List Nat) :
    ∀ (b : Bool), ∀ c ∈ subNonAlphaAux b l, isAlphaCode c = true ∨ c = 32 := by
  induction l with
  | nil =>
    intro b c hc
    simp [subNonAlphaAux] at hc
  | cons a t ih =>
    intro b c hc
    simp only [subNonAlphaAux] at hc
    by_cases ha : isAlphaCode a
    · rw [if_pos ha] at hc
      rcases List.mem_cons.mp hc with h | h
      · exact Or.inl (h ▸ ha)
      · exact ih false c h
    · rw [if_neg ha] at hc
      by_cases hb : b = true
      · rw [hb, if_pos rfl] at hc
        exact ih true c hc
      · rw [if_neg hb] at hc
        rcases List.mem_cons.mp hc with h | h
        · exact Or.inr h
        · exact ih true c h

/-- One-step equation for `splitWs` at two leading non-space characters. -/
theorem splitWs_cons_cons_eq (a d : Nat) (rest : List Nat)
    (hs : ¬ isSpaceCode a = true) (hd : ¬ isSpaceCode d = true) :
    splitWs (a :: d :: rest) =
      match splitWs (d :: rest) with
      | [] => [[a]]
      | t :: ts => (a :: t) :: ts := by
  conv_lhs => rw [splitWs]
  rw [if_neg hs, if_neg hd]

/-- Every piece produced by `splitWs` is a non-empty token whose characters
come from the input and contain no whitespace. -/
theorem splitWs_mem (l : List Nat) :
    ∀ t ∈ splitWs l, t ≠ [] ∧ ∀ c ∈ t, c ∈ l ∧ isSpaceCode c = false := by
  induction l with
  | nil =>
    intro t ht
    simp [splitWs] at ht
  | cons a cs ih =>
    intro t ht
    by_cases hs : isSpaceCode a
    · rw [show splitWs (a :: cs) = splitWs cs from by simp [splitWs, hs]] at ht
      obtain ⟨hne, hmem⟩ := ih t ht
      exact ⟨hne, fun c hc =>
        ⟨List.mem_cons_of_mem a (hmem c hc).1, (hmem c hc).2⟩⟩
    · cases cs with
      | nil =>
        rw [show splitWs [a] = [[a]] from by simp [splitWs, hs]] at ht
        rw [List.mem_singleton] at ht
        refine ⟨by simp [ht], fun c hc => ?_⟩
        rw [ht, List.mem_singleton] at hc
        rw [hc]
        exact ⟨List.mem_cons_self a _, Bool.eq_false_iff.mpr hs⟩
      | cons d rest =>
        by_cases hd : isSpaceCode d
        · rw [show splitWs (a :: d :: rest) = [a] :: splitWs (d :: rest) from by
            simp [splitWs, hs, hd]] at ht
          rcases List.mem_cons.mp ht with h | h
          · refine ⟨by simp [h], fun c hc => ?_⟩
            rw [h, List.mem_singleton] at hc
            rw [hc]
            exact ⟨List.mem_cons_self a _, Bool.eq_false_iff.mpr hs⟩
          · obtain ⟨hne, hmem⟩ := ih t h
            exact ⟨hne, fun c hc =>
              ⟨List.mem_cons_of_mem a (hmem c hc).1, (hmem c hc).2⟩⟩
        · cases hsp : splitWs (d :: rest) with
          | nil =>
            rw [show splitWs (a :: d :: rest) = [[a]] from by
              rw [splitWs_cons_cons_eq a d rest hs hd, hsp]] at ht
            rw [List.mem_singleton] at ht
            refine ⟨by simp [ht], fun c hc => ?_⟩
            rw [ht, List.mem_singleton] at hc
            rw [hc]
            exact ⟨List.mem_cons_self a _, Bool.eq_false_iff.mpr hs⟩
          | cons t0 ts =>
            rw [show splitWs (a :: d :: rest) = (a :: t0) :: ts from by
              rw [splitWs_cons_cons_eq a d rest hs hd, hsp]] at ht
            rcases List.mem_cons.mp ht with h | h
            · obtain ⟨_, hmem0⟩ := ih t0 (hsp ▸ List.mem_cons_self t0 ts)
              refine ⟨by simp [h], fun c hc => ?_⟩
              rw [h] at hc
              rcases List.mem_cons.mp hc with h' | h'
              · rw [h']
                exact ⟨List.mem_cons_self a _, Bool.eq_false_iff.mpr hs⟩
              · exact ⟨List.mem_cons_of_mem a (hmem0 c h').1, (hmem0 c h').2⟩
            · obtain ⟨hne, hmem⟩ := ih t (hsp ▸ List.mem_cons_of_mem t0 h)
              exact ⟨hne, fun c hc =>
                ⟨List.mem_cons_of_mem a (hmem c hc).1, (hmem c hc).2⟩⟩

/-- Every token produced by `tokenize` is non-empty and consists only of
lowercase ASCII letter codes. -/
theorem tokenize_mem (line : List Nat) :
    ∀ t ∈ tokenize line, t ≠ [] ∧ ∀ c ∈ t, 97 ≤ c ∧ c ≤ 122 := by
  intro t ht
  obtain ⟨hne, hmem⟩ := splitWs_mem _ t ht
  refine ⟨hne, fun c hc => ?_⟩
  obtain ⟨hcl, hcs⟩ := hmem c hc
  obtain ⟨c0, hc0, rfl⟩ := List.mem_map.mp hcl
  rcases mem_subNonAlphaAux line false c0 hc0 with h | h
  · simp only [isAlphaCode, Bool.or_eq_true, Bool.and_eq_true,
      decide_eq_true_eq] at h
    unfold lowerCode
    split
    · omega
    · omega
  · subst h
    simp [lowerCode, isSpaceCode] at hcs

/-- C7: `tokenize` has no error cases (it is a total function evaluated
here), an empty line yields an empty token sequence, it lower-cases its
input (`"DON"` becomes the token `"don"`), and after removing non-alphabetic
characters and splitting on whitespace every token is a non-empty lowercase
word. -/
theorem tokenize_total (line : List Nat) :
    tokenize [] = ([] : List (List Nat))
    ∧ tokenize [68, 79, 78] = [[100, 111, 110]]
    ∧ (∀ t ∈ tokenize line, t ≠ [] ∧ ∀ c ∈ t, 97 ≤ c ∧ c ≤ 122) :=
  ⟨by decide, by decide, tokenize_mem line⟩

/-- Witness for C7 at the concrete line `"d"` (code 100). -/
theorem tokenize_total_witness :
    ([100] : List Nat) ≠ [] ∧ ∀ c ∈ ([100] : List Nat), 97 ≤ c ∧ c ≤ 122 :=
  (tokenize_total [100]).2.2 [100] (by decide)

/-- C10: every token consists only of lowercase ASCII letter codes; a
maximal run of non-alphabetic characters is replaced by a single space
(`"a!!b"` becomes `"a b"`) and therefore separates tokens, so `"don't"`
yields the two tokens `"don"` and `"t"`. -/
theorem tokenize_lower_alpha_tokens (line : List Nat) :
    (∀ t ∈ tokenize line, t ≠ [] ∧ ∀ c ∈ t, 97 ≤ c ∧ c ≤ 122)
    ∧ subNonAlpha [97, 33, 33, 98] = [97, 32, 98]
    ∧ tokenize [100, 111, 110, 39, 116] = [[100, 111, 110], [116]] :=
  ⟨tokenize_mem line, by decide, by decide⟩

/-- Witness for C10 at the concrete line `"don't"`. -/
theorem tokenize_lower_alpha_tokens_witness :
    ([116] : List Nat) ≠ [] ∧ ∀ c ∈ ([116] : List Nat), 97 ≤ c ∧ c ≤ 122 :=
  (tokenize_lower_alpha_tokens [100, 111, 110, 39, 116]).1 [116] (by decide)

end LangModel
